import Mathlib

/-!
Verification of the PriorityCodeIA triage core: a shallow embedding of
`src/rules_engine.py`, `src/naive_bayes.py` (the posterior-consuming decision
layer), `src/priority_queue.py` and the decision-fusion glue in `main.py`,
together with theorems settling the specification claims about them.

Conventions of the embedding:
* Python dictionaries of string facts are association lists; `fget` models
  `dict.get(k)` (returning `none` for a missing key, as Python returns `None`)
  and `fset` models `dict[k] = v` (overwriting the key).
* Python floats are rationals (`ℚ`); all the arithmetic the claims touch is
  exact, so this is faithful.
* The trained BernoulliNB classifier is an external collaborator; the decision
  layer is embedded as a function of the posterior it produces, which is how
  the spec describes `CostSensitiveDecider.decide(posterior, floor, ...)`.
* Unbounded `while` loops are embedded with explicit fuel; the termination
  theorem (claim C9) proves that fuel equal to the rule-set size already
  reaches the fixpoint, so the fueled function agrees with the Python loop.
-/

/-! ## Fact sets (Python dicts of categorical strings) -/

/-- A fact set: a finite map from feature names to category values, modelled
as an association list (first binding wins, as later `fset` writes are pushed
to the front and stale bindings are dropped). -/
def Facts : Type := List (String × String)

instance : DecidableEq Facts := by
  unfold Facts
  infer_instance

/-- Model of Python `facts.get(k)`: `none` when the key is absent. -/
def fget (f : Facts) (k : String) : Option String :=
  (f.find? (fun p => p.1 == k)).map (fun p => p.2)

/-- Model of Python `facts[k] = v`: overwrite the binding for `k`. -/
def fset (f : Facts) (k v : String) : Facts :=
  (k, v) :: f.filter (fun p => p.1 != k)

theorem fget_fset_same (f : Facts) (k v : String) :
    fget (fset f k v) k = some v := by
  simp [fget, fset, List.find?]

theorem find?_filter_ne (l : List (String × String)) (k k2 : String) (h : k2 ≠ k) :
    List.find? (fun p => p.1 == k2) (l.filter (fun p => p.1 != k)) =
      List.find? (fun p => p.1 == k2) l := by
  induction l with
  | nil => rfl
  | cons p rest ih =>
    have hne : (k == k2) = false := by simp [Ne.symm h]
    by_cases hk : p.1 = k
    · have h2 : (p.1 == k2) = false := by simp [hk, Ne.symm h]
      simp [List.filter_cons, hk, List.find?_cons, h2, hne, ih]
    · by_cases hk2 : p.1 = k2
      · simp [List.filter_cons, hk, List.find?_cons, hk2, h]
      · simp [List.filter_cons, hk, List.find?_cons, hk2, h, ih]

theorem fget_fset_other (f : Facts) (k v k2 : String) (h : k2 ≠ k) :
    fget (fset f k v) k2 = fget f k2 := by
  have hne : (k == k2) = false := by simp [Ne.symm h]
  unfold Facts at f
  simp [fget, fset, List.find?_cons, hne, find?_filter_ne f k k2 h]

/-! ## Rule engine (`src/rules_engine.py`) -/

/-- A production rule. The Python `then` dictionary only ever carries the keys
`"triage"` (hard assignment) and `"triage_min"` (severity floor), so it is
embedded as two optional fields. -/
structure Rule where
  id : String
  any_conditions : List (String × String)
  all_conditions : List (String × String)
  then_triage : Option String
  then_triage_min : Option String
  priority : Int
deriving DecidableEq

/-- Number of conditions; mirrors `Rule.specificity`. -/
def Rule.specificity (r : Rule) : Nat :=
  r.any_conditions.length + r.all_conditions.length

/-- One condition `(k, v)` holds when the fact set maps `k` to `v`; a missing
key yields Python `None`, which equals no category value. -/
def condHolds (facts : Facts) (c : String × String) : Bool :=
  fget facts c.1 == some c.2

/-- Mirrors `Rule.matches`: all AND-conditions hold, and if any OR-conditions
are declared at least one holds. -/
def Rule.matches (r : Rule) (facts : Facts) : Bool :=
  r.all_conditions.all (condHolds facts) &&
  (if r.any_conditions.isEmpty then true else r.any_conditions.any (condHolds facts))

/-- The static knowledge base of `default_kb()`. -/
def default_kb : List Rule :=
  [ { id := "R1_ipossia_shock_coscienza",
      any_conditions := [("spo2_cat", "severa"), ("sbp_cat", "severa"),
                         ("alterazione_coscienza", "yes")],
      all_conditions := [],
      then_triage := some "Rosso", then_triage_min := none, priority := 100 },
    { id := "R2_trauma_o_sanguinamento",
      any_conditions := [("trauma_magg", "yes"), ("sanguinamento_massivo", "yes")],
      all_conditions := [],
      then_triage := some "Rosso", then_triage_min := none, priority := 95 },
    { id := "R3_dolore_toracico_e_dispnea",
      any_conditions := [],
      all_conditions := [("dolore_toracico", "yes"), ("dispnea", "yes")],
      then_triage := none, then_triage_min := some "Giallo", priority := 70 },
    { id := "R4_tachipnea_moderata_con_dispnea",
      any_conditions := [],
      all_conditions := [("rr_cat", "alta"), ("dispnea", "yes")],
      then_triage := none, then_triage_min := some "Giallo", priority := 60 },
    { id := "R5_febbre_alta_senza_allarme",
      any_conditions := [],
      all_conditions := [("temp_cat", "alta"), ("alterazione_coscienza", "no"),
                         ("dispnea", "no")],
      then_triage := some "Verde", then_triage_min := none, priority := 40 },
    { id := "R6_fallback_bianco",
      any_conditions := [], all_conditions := [],
      then_triage := some "Bianco", then_triage_min := none, priority := 0 } ]

/-- Severity order, least to most urgent (`ORDER` in `rules_engine.py`). -/
def ORDER : List String := ["Bianco", "Verde", "Giallo", "Rosso"]

/-- Index of a severity in `ORDER`; mirrors `ORDER.index(s)`. All call sites
in the source pass one of the four levels, so the out-of-list value (4) is
never reached on the paths the claims quantify over. -/
def sevRank (s : String) : Nat :=
  ORDER.findIdx (fun x => x == s)

/-- Mirrors `max_severity(a, b)`: `a` if `ORDER.index(a) >= ORDER.index(b)`
else `b`. -/
def max_severity (a b : String) : String :=
  if sevRank b ≤ sevRank a then a else b

/-- Conflict-resolution key comparison: `c` beats `best` when its
`(priority, specificity)` pair is lexicographically strictly greater. -/
def betterRule (c best : Rule) : Bool :=
  c.priority > best.priority ||
  (c.priority == best.priority && c.specificity > best.specificity)

/-- First element of the candidate list attaining the lexicographic maximum of
`(priority, specificity)`. The Python code stably sorts the candidates by that
key in descending order and takes the head; the head of a stable descending
sort is exactly the earliest element with maximal key, which this fold
computes. -/
def selectRule : List Rule → Option Rule
  | [] => none
  | r :: rs => some (rs.foldl (fun best c => if betterRule c best then c else best) r)

/-- Candidate rules of one iteration: not yet fired and matching the current
working fact set (the list comprehension in `forward_chain`). -/
def candidates (kb : List Rule) (fired : List String) (facts : Facts) : List Rule :=
  kb.filter (fun r => !(fired.contains r.id) && r.matches facts)

/-- The rule applied in one iteration of `forward_chain`, if any. -/
def stepRule (kb : List Rule) (fired : List String) (facts : Facts) : Option Rule :=
  selectRule (candidates kb fired facts)

/-- Floor combination: `triage_min = m if triage_min is None else
max_severity(triage_min, m)`. -/
def mergeMin : Option String → String → String
  | none, m => m
  | some cur, m => max_severity cur m

/-- Effect of a fired rule on the working fact set: a hard assignment
(`"triage" in r.then`) overwrites the `"triage"` fact. -/
def applyTriage (r : Rule) (facts : Facts) : Facts :=
  match r.then_triage with
  | some t => fset facts "triage" t
  | none => facts

/-- Effect of a fired rule on the running floor (`"triage_min" in r.then`). -/
def applyMin (r : Rule) (tmin : Option String) : Option String :=
  match r.then_triage_min with
  | some m => some (mergeMin tmin m)
  | none => tmin

/-- The `while changed` loop of `forward_chain`, with explicit fuel. Each
iteration selects the best unfired matching rule, applies its consequents,
appends it to `fired` and stops early once the working `triage` fact is
`"Rosso"`. Fuel `kb.length` is proved sufficient below (claim C9). -/
def fcLoop (kb : List Rule) :
    Nat → Facts → List String → Option String → Facts × List String × Option String
  | 0, facts, fired, tmin => (facts, fired, tmin)
  | fuel + 1, facts, fired, tmin =>
    match stepRule kb fired facts with
    | none => (facts, fired, tmin)
    | some r =>
      if fget (applyTriage r facts) "triage" == some "Rosso" then
        (applyTriage r facts, fired ++ [r.id], applyMin r tmin)
      else fcLoop kb fuel (applyTriage r facts) (fired ++ [r.id]) (applyMin r tmin)

/-- Mirrors `forward_chain(facts, kb)`: run the loop, then consolidate the
guaranteed minimum (`triage_min`) into the result. -/
def forward_chain (facts : Facts) (kb : List Rule) : String × List String × Facts :=
  let res := fcLoop kb kb.length facts [] none
  let triage := (fget res.1 "triage").getD "Bianco"
  match res.2.2 with
  | none => (triage, res.2.1, res.1)
  | some m =>
    let t := max_severity triage m
    (t, res.2.1, fset res.1 "triage" t)

example :
    (forward_chain [("temp_cat", "alta"), ("alterazione_coscienza", "no"),
                    ("dispnea", "no")] default_kb).1 = "Bianco" := by decide

example :
    (forward_chain [("spo2_cat", "severa")] default_kb).1 = "Rosso" := by decide

example :
    (forward_chain [("dolore_toracico", "yes"), ("dispnea", "yes")] default_kb).1
      = "Giallo" := by decide

/-! ## Conflict resolution: the selected rule is the earliest lexicographic
maximum of `(priority, specificity)` (claim C6) -/

/-- Strict lexicographic order on the conflict-resolution key
`(priority, specificity)`. -/
def keyLT (a b : Rule) : Prop :=
  a.priority < b.priority ∨ (a.priority = b.priority ∧ a.specificity < b.specificity)

instance (a b : Rule) : Decidable (keyLT a b) := by
  unfold keyLT
  infer_instance

theorem betterRule_iff (c b : Rule) : betterRule c b = true ↔ keyLT b c := by
  simp only [betterRule, keyLT, Bool.or_eq_true, decide_eq_true_eq, Bool.and_eq_true, beq_iff_eq,
    gt_iff_lt]
  constructor
  · rintro (h | ⟨h1, h2⟩)
    · exact Or.inl h
    · exact Or.inr ⟨h1.symm, h2⟩
  · rintro (h | ⟨h1, h2⟩)
    · exact Or.inl h
    · exact Or.inr ⟨h1.symm, h2⟩

theorem betterRule_false_iff (c b : Rule) : betterRule c b = false ↔ ¬ keyLT b c := by
  rw [← betterRule_iff]
  simp

/-- The selection fold of `selectRule`, named for the proofs. -/
def pick (a : Rule) (rs : List Rule) : Rule :=
  rs.foldl (fun best c => if betterRule c best then c else best) a

theorem selectRule_cons (a : Rule) (rs : List Rule) :
    selectRule (a :: rs) = some (pick a rs) := rfl

theorem pick_cons (a c : Rule) (rs : List Rule) :
    pick a (c :: rs) = pick (if betterRule c a then c else a) rs := rfl

/-- Characterization of the selection fold: the scanned list splits as
`l1 ++ pick a rs :: l2` where no element of the list strictly beats the chosen
rule, and the chosen rule strictly beats every element before it — i.e. the
chosen rule is the earliest occurrence of the maximal key. -/
theorem pick_spec (rs : List Rule) :
    ∀ a : Rule,
      ∃ l1 l2 : List Rule,
        a :: rs = l1 ++ pick a rs :: l2 ∧
        (∀ x ∈ a :: rs, ¬ keyLT (pick a rs) x) ∧
        (∀ x ∈ l1, keyLT x (pick a rs)) := by
  induction rs with
  | nil =>
    intro a
    refine ⟨[], [], rfl, ?_, by simp⟩
    intro x hx
    rcases List.mem_singleton.mp hx with rfl
    simp [pick, keyLT]
  | cons c rs ih =>
    intro a
    by_cases h : betterRule c a = true
    · have hac : keyLT a c := (betterRule_iff c a).mp h
      obtain ⟨l1, l2, hsplit, hmax, hbef⟩ := ih c
      have hpick : pick a (c :: rs) = pick c rs := by rw [pick_cons, if_pos h]
      refine ⟨a :: l1, l2, ?_, ?_, ?_⟩
      · rw [hpick]
        simpa using congrArg (a :: ·) hsplit
      · intro x hx
        rw [hpick]
        rcases List.mem_cons.mp hx with rfl | hx
        · have h1 : ¬ keyLT (pick c rs) c := hmax c (by simp)
          simp only [keyLT] at hac h1 ⊢
          omega
        · exact hmax x hx
      · intro x hx
        rw [hpick]
        rcases List.mem_cons.mp hx with rfl | hx
        · have h1 : ¬ keyLT (pick c rs) c := hmax c (by simp)
          simp only [keyLT] at hac h1 ⊢
          omega
        · exact hbef x hx
    · have hac : ¬ keyLT a c := (betterRule_false_iff c a).mp (by simpa using h)
      obtain ⟨l1, l2, hsplit, hmax, hbef⟩ := ih a
      have hpick : pick a (c :: rs) = pick a rs := by rw [pick_cons, if_neg h]
      rcases l1 with _ | ⟨x, l1t⟩
      · have hba : pick a rs = a := by
          have := (List.cons.injEq _ _ _ _).mp (by simpa using hsplit)
          exact this.1.symm
      -- chosen rule is the accumulator itself
        refine ⟨[], c :: rs, ?_, ?_, by simp⟩
        · rw [hpick, hba]
          simp
        · intro y hy
          rw [hpick, hba]
          rcases List.mem_cons.mp hy with rfl | hy
          · simp [keyLT]
          · rcases List.mem_cons.mp hy with rfl | hy
            · exact hac
            · have := hmax y (by simp [hy])
              rwa [hba] at this
      · have hxa : x = a := by
          have := (List.cons.injEq _ _ _ _).mp (by simpa using hsplit)
          exact this.1.symm
        rw [hxa] at hsplit hbef
        have hrs : rs = l1t ++ pick a rs :: l2 := by
          simpa using hsplit
        have hba : keyLT a (pick a rs) := hbef a (by simp)
        refine ⟨a :: c :: l1t, l2, ?_, ?_, ?_⟩
        · rw [hpick]
          simp only [List.cons_append]
          exact congrArg (a :: ·) (congrArg (c :: ·) hrs)
        · intro y hy
          rw [hpick]
          rcases List.mem_cons.mp hy with rfl | hy
          · exact hmax y (by simp)
          · rcases List.mem_cons.mp hy with rfl | hy
            · simp only [keyLT] at hac hba ⊢
              omega
            · exact hmax y (by simp [hy])
        · intro y hy
          rw [hpick]
          rcases List.mem_cons.mp hy with rfl | hy
          · exact hba
          · rcases List.mem_cons.mp hy with rfl | hy
            · simp only [keyLT] at hac hba ⊢
              omega
            · exact hbef y (by simp [hy])

/-- The selected rule of one iteration is one of the candidates. -/
theorem stepRule_mem {kb : List Rule} {fired : List String} {facts : Facts} {r : Rule}
    (h : stepRule kb fired facts = some r) : r ∈ candidates kb fired facts := by
  unfold stepRule at h
  rcases hc : candidates kb fired facts with _ | ⟨a, rs⟩ <;> rw [hc] at h
  · simp [selectRule] at h
  · rw [selectRule_cons] at h
    obtain ⟨l1, l2, hsplit, -, -⟩ := pick_spec rs a
    have hr : pick a rs = r := by simpa using h
    rw [hsplit, ← hr]
    exact List.mem_append_right l1 (List.mem_cons_self _ _)

/-- Full characterization of the selected rule, shared by the claim theorems:
it is a candidate, no candidate strictly beats it, and it strictly beats every
candidate listed before it (candidates appear in declaration order, since
`candidates` is a filter of the rule list). -/
theorem stepRule_spec {kb : List Rule} {fired : List String} {facts : Facts} {r : Rule}
    (h : stepRule kb fired facts = some r) :
    r ∈ candidates kb fired facts ∧
    (∀ c ∈ candidates kb fired facts, ¬ keyLT r c) ∧
    ∃ l1 l2 : List Rule,
      candidates kb fired facts = l1 ++ r :: l2 ∧ ∀ c ∈ l1, keyLT c r := by
  refine ⟨stepRule_mem h, ?_⟩
  unfold stepRule at h
  rcases hc : candidates kb fired facts with _ | ⟨a, rs⟩ <;> rw [hc] at h
  · simp [selectRule] at h
  · rw [selectRule_cons] at h
    have hr : pick a rs = r := by simpa using h
    obtain ⟨l1, l2, hsplit, hmax, hbef⟩ := pick_spec rs a
    rw [← hr]
    exact ⟨hmax, l1, l2, hsplit, hbef⟩

/-! ## Termination measure for the forward-chaining loop (claim C9) -/

/-- Number of rules not yet fired (duplicated ids counted as the Python
membership test does). -/
def unfiredCount (kb : List Rule) (fired : List String) : Nat :=
  (kb.filter (fun r => !(fired.contains r.id))).length

theorem length_filter_mono {α : Type} (l : List α) (p q : α → Bool)
    (himp : ∀ a, q a = true → p a = true) :
    (l.filter q).length ≤ (l.filter p).length := by
  induction l with
  | nil => simp
  | cons x rest ih =>
    by_cases hq : q x = true
    · simp [List.filter_cons, hq, himp x hq]
      omega
    · have hq2 : q x = false := by simpa using hq
      by_cases hp : p x = true
      · simp [List.filter_cons, hq2, hp]
        omega
      · have hp2 : p x = false := by simpa using hp
        simpa [List.filter_cons, hq2, hp2] using ih

theorem length_filter_lt {α : Type} (l : List α) (p q : α → Bool)
    (himp : ∀ a, q a = true → p a = true) (a : α) (ha : a ∈ l)
    (hpa : p a = true) (hqa : q a = false) :
    (l.filter q).length < (l.filter p).length := by
  induction l with
  | nil => cases ha
  | cons x rest ih =>
    rcases List.mem_cons.mp ha with rfl | ha
    · simp [List.filter_cons, hpa, hqa]
      have := length_filter_mono rest p q himp
      omega
    · by_cases hq : q x = true
      · simp [List.filter_cons, hq, himp x hq]
        have := ih ha
        omega
      · have hq2 : q x = false := by simpa using hq
        by_cases hp : p x = true
        · simp [List.filter_cons, hq2, hp]
          have := ih ha
          omega
        · have hp2 : p x = false := by simpa using hp
          simpa [List.filter_cons, hq2, hp2] using ih ha

/-- Properties of a candidate: it belongs to the rule list, has not fired yet
and matches the working facts. -/
theorem candidates_mem {kb : List Rule} {fired : List String} {facts : Facts} {r : Rule}
    (h : r ∈ candidates kb fired facts) :
    r ∈ kb ∧ fired.contains r.id = false ∧ r.matches facts = true := by
  obtain ⟨h1, h2⟩ := List.mem_filter.mp h
  simp only [Bool.and_eq_true, Bool.not_eq_true'] at h2
  exact ⟨h1, h2.1, h2.2⟩

/-- Firing the selected rule strictly decreases the number of unfired rules:
the invariant behind the spec's termination argument. -/
theorem unfiredCount_decrease {kb : List Rule} {fired : List String} {facts : Facts} {r : Rule}
    (h : stepRule kb fired facts = some r) :
    unfiredCount kb (fired ++ [r.id]) < unfiredCount kb fired := by
  obtain ⟨hkb, hunf, -⟩ := candidates_mem (stepRule_mem h)
  refine length_filter_lt kb _ _ ?_ r hkb (by simpa using hunf) (by simp)
  intro a ha
  have ha2 : a.id ∉ fired ++ [r.id] := by simpa using ha
  have ha3 : a.id ∉ fired := fun hm => ha2 (List.mem_append_left _ hm)
  simpa using ha3

/-! ## Fuel stability and the termination bound (claim C9) -/

theorem fcLoop_succ_none {kb : List Rule} {fuel : Nat} {facts : Facts} {fired : List String}
    {tmin : Option String} (h : stepRule kb fired facts = none) :
    fcLoop kb (fuel + 1) facts fired tmin = (facts, fired, tmin) := by
  simp [fcLoop, h]

theorem fcLoop_succ_some {kb : List Rule} {fuel : Nat} {facts : Facts} {fired : List String}
    {tmin : Option String} {r : Rule} (h : stepRule kb fired facts = some r) :
    fcLoop kb (fuel + 1) facts fired tmin =
      if fget (applyTriage r facts) "triage" == some "Rosso" then
        (applyTriage r facts, fired ++ [r.id], applyMin r tmin)
      else fcLoop kb fuel (applyTriage r facts) (fired ++ [r.id]) (applyMin r tmin) := by
  simp [fcLoop, h]

theorem candidates_nil_of_unfired_zero {kb : List Rule} {fired : List String} {facts : Facts}
    (h : unfiredCount kb fired = 0) : candidates kb fired facts = [] := by
  have hle : (candidates kb fired facts).length ≤ unfiredCount kb fired := by
    unfold candidates unfiredCount
    apply length_filter_mono
    intro a ha
    exact (Bool.and_eq_true _ _ ▸ ha).1
  rw [h, Nat.le_zero] at hle
  exact List.length_eq_zero.mp hle

theorem stepRule_none_of_zero {kb : List Rule} {fired : List String} {facts : Facts}
    (h : unfiredCount kb fired = 0) : stepRule kb fired facts = none := by
  unfold stepRule
  rw [candidates_nil_of_unfired_zero h]
  rfl

/-- Once the fuel covers the number of unfired rules, adding more fuel does not
change the outcome: the loop reaches its fixpoint first. -/
theorem fcLoop_fuel_succ (kb : List Rule) :
    ∀ fuel : Nat, ∀ facts : Facts, ∀ fired : List String, ∀ tmin : Option String,
      unfiredCount kb fired ≤ fuel →
      fcLoop kb (fuel + 1) facts fired tmin = fcLoop kb fuel facts fired tmin := by
  intro fuel
  induction fuel with
  | zero =>
    intro facts fired tmin h
    have h0 : unfiredCount kb fired = 0 := Nat.le_zero.mp h
    rw [fcLoop_succ_none (stepRule_none_of_zero h0)]
    rfl
  | succ f ih =>
    intro facts fired tmin h
    cases hs : stepRule kb fired facts with
    | none => rw [fcLoop_succ_none hs, fcLoop_succ_none hs]
    | some r =>
      rw [fcLoop_succ_some hs, fcLoop_succ_some hs]
      cases hb : (fget (applyTriage r facts) "triage" == some "Rosso") with
      | true => simp [hb]
      | false =>
        simp only [hb, if_false, Bool.false_eq_true]
        apply ih
        have := unfiredCount_decrease hs
        omega

theorem unfiredCount_nil (kb : List Rule) : unfiredCount kb [] = kb.length := by
  unfold unfiredCount
  simp [List.contains]

/-- Fuel `kb.length` already reaches the fixpoint of the Python `while` loop:
any larger fuel computes the same result. -/
theorem fcLoop_fuel_stable (kb : List Rule) (facts : Facts) :
    ∀ extra : Nat,
      fcLoop kb (kb.length + extra) facts [] none = fcLoop kb kb.length facts [] none := by
  intro extra
  induction extra with
  | zero => rfl
  | succ e ih =>
    have hstep : kb.length + (e + 1) = (kb.length + e) + 1 := rfl
    rw [hstep, fcLoop_fuel_succ kb (kb.length + e) facts [] none (by rw [unfiredCount_nil]; omega)]
    exact ih

/-- Each loop iteration appends exactly one rule id, so the fired list grows by
at most the fuel. -/
theorem fcLoop_fired_len (kb : List Rule) :
    ∀ fuel : Nat, ∀ facts : Facts, ∀ fired : List String, ∀ tmin : Option String,
      ((fcLoop kb fuel facts fired tmin).2.1).length ≤ fired.length + fuel := by
  intro fuel
  induction fuel with
  | zero =>
    intro facts fired tmin
    simp [fcLoop]
  | succ f ih =>
    intro facts fired tmin
    cases hs : stepRule kb fired facts with
    | none =>
      rw [fcLoop_succ_none hs]
      simp
    | some r =>
      rw [fcLoop_succ_some hs]
      cases hb : (fget (applyTriage r facts) "triage" == some "Rosso") with
      | true =>
        simp [hb]
      | false =>
        simp only [hb, if_false, Bool.false_eq_true]
        have := ih (applyTriage r facts) (fired ++ [r.id]) (applyMin r tmin)
        simp at this
        omega

/-- Fired rules never repeat: a rule already in `fired` is not a candidate. -/
theorem fcLoop_fired_nodup (kb : List Rule) :
    ∀ fuel : Nat, ∀ facts : Facts, ∀ fired : List String, ∀ tmin : Option String,
      fired.Nodup → ((fcLoop kb fuel facts fired tmin).2.1).Nodup := by
  intro fuel
  induction fuel with
  | zero =>
    intro facts fired tmin h
    simpa [fcLoop] using h
  | succ f ih =>
    intro facts fired tmin h
    have hap : ∀ r : Rule, stepRule kb fired facts = some r → (fired ++ [r.id]).Nodup := by
      intro r hs
      obtain ⟨-, hunf, -⟩ := candidates_mem (stepRule_mem hs)
      have hnm : r.id ∉ fired := by simpa using hunf
      simp [List.nodup_append, h, hnm]
    cases hs : stepRule kb fired facts with
    | none =>
      rw [fcLoop_succ_none hs]
      exact h
    | some r =>
      rw [fcLoop_succ_some hs]
      cases hb : (fget (applyTriage r facts) "triage" == some "Rosso") with
      | true =>
        simpa [hb] using hap r hs
      | false =>
        simp only [hb, if_false, Bool.false_eq_true]
        exact ih (applyTriage r facts) (fired ++ [r.id]) (applyMin r tmin) (hap r hs)

/-- The fired-rule list returned by `forward_chain` is the loop's fired list
(the floor-consolidation step does not touch it). -/
theorem forward_chain_fired (facts : Facts) (kb : List Rule) :
    (forward_chain facts kb).2.1 = (fcLoop kb kb.length facts [] none).2.1 := by
  unfold forward_chain
  cases h : (fcLoop kb kb.length facts [] none).2.2 <;> simp [h]

/-- Claim C9: forward chaining terminates after at most as many iterations as
there are rules. Formally: (i) fuel `kb.length` already reaches the loop's
fixpoint — any extra fuel computes the same result, so the unbounded Python
`while` loop stops within `kb.length` iterations; (ii) the fired-rule list
(one entry per iteration) has length at most `kb.length`; (iii) no rule fires
twice — each iteration fires a rule that never fired before, or stops. -/
theorem forward_chain_terminates_within_ruleset_size (facts : Facts) (kb : List Rule)
    (extra : Nat) :
    fcLoop kb (kb.length + extra) facts [] none = fcLoop kb kb.length facts [] none ∧
    (forward_chain facts kb).2.1.length ≤ kb.length ∧
    (forward_chain facts kb).2.1.Nodup := by
  refine ⟨fcLoop_fuel_stable kb facts extra, ?_, ?_⟩
  · rw [forward_chain_fired]
    simpa using fcLoop_fired_len kb kb.length facts [] none
  · rw [forward_chain_fired]
    exact fcLoop_fired_nodup kb kb.length facts [] none List.nodup_nil

/-- Claim C6: at every iteration of forward chaining, the rule applied is a
not-yet-fired matching rule (a candidate) such that no candidate has a
strictly greater `(priority, specificity)` lexicographic key — i.e. highest
priority, ties broken by highest specificity — and every candidate declared
before it (candidates appear in rule-set declaration order) has a strictly
smaller key, so remaining ties go to the earliest declaration. -/
theorem step_applies_best_rule (kb : List Rule) (fired : List String) (facts : Facts)
    (r : Rule) (h : stepRule kb fired facts = some r) :
    r ∈ candidates kb fired facts ∧
    (∀ c ∈ candidates kb fired facts, ¬ keyLT r c) ∧
    ∃ l1 l2 : List Rule,
      candidates kb fired facts = l1 ++ r :: l2 ∧ ∀ c ∈ l1, keyLT c r :=
  stepRule_spec h

/-- Witness for C6: on facts `{spo2_cat: severa}` with nothing fired yet, the
engine applies rule R1 (priority 100), which beats the other candidate R6. -/
theorem step_applies_best_rule_witness :
    ({ id := "R1_ipossia_shock_coscienza",
       any_conditions := [("spo2_cat", "severa"), ("sbp_cat", "severa"),
                          ("alterazione_coscienza", "yes")],
       all_conditions := [],
       then_triage := some "Rosso", then_triage_min := none, priority := 100 } : Rule)
        ∈ candidates default_kb [] [("spo2_cat", "severa")] ∧
    (∀ c ∈ candidates default_kb [] [("spo2_cat", "severa")],
      ¬ keyLT { id := "R1_ipossia_shock_coscienza",
                any_conditions := [("spo2_cat", "severa"), ("sbp_cat", "severa"),
                                   ("alterazione_coscienza", "yes")],
                all_conditions := [],
                then_triage := some "Rosso", then_triage_min := none, priority := 100 } c) ∧
    ∃ l1 l2 : List Rule,
      candidates default_kb [] [("spo2_cat", "severa")] =
        l1 ++ ({ id := "R1_ipossia_shock_coscienza",
                 any_conditions := [("spo2_cat", "severa"), ("sbp_cat", "severa"),
                                    ("alterazione_coscienza", "yes")],
                 all_conditions := [],
                 then_triage := some "Rosso", then_triage_min := none,
                 priority := 100 } : Rule) :: l2 ∧
      ∀ c ∈ l1, keyLT c { id := "R1_ipossia_shock_coscienza",
                          any_conditions := [("spo2_cat", "severa"), ("sbp_cat", "severa"),
                                             ("alterazione_coscienza", "yes")],
                          all_conditions := [],
                          then_triage := some "Rosso", then_triage_min := none,
                          priority := 100 } :=
  step_applies_best_rule default_kb [] [("spo2_cat", "severa")] _ (by decide)

/-! ## Missing fact keys in rule matching (claim C4) -/

/-- Claim C4 counterexample: a rule whose antecedent requires
`(dispnea, "unknown")` does NOT match the empty fact set. `facts.get(k)` in
`Rule.matches` returns Python `None` for a missing key — not the string
`"unknown"` — and `None` equals no category value, so the condition fails. -/
theorem missing_key_matches_unknown_counterexample :
    ({ id := "RU_unknown_probe", any_conditions := [],
       all_conditions := [("dispnea", "unknown")],
       then_triage := some "Rosso", then_triage_min := none, priority := 1 } : Rule).matches []
      = false := by decide

/-- Amended claim C4: rule evaluation never raises on a missing key (the
lookup is total, returning `None`), but a missing key satisfies no condition —
not even one requiring the `"unknown"` category. Any rule with an
AND-condition on a key absent from the fact set fails to match. -/
theorem matches_false_of_missing_key (r : Rule) (facts : Facts) (k v : String)
    (hmem : (k, v) ∈ r.all_conditions) (hmiss : fget facts k = none) :
    r.matches facts = false := by
  unfold Rule.matches
  have hall : r.all_conditions.all (condHolds facts) = false := by
    apply List.all_eq_false.mpr
    exact ⟨(k, v), hmem, by simp [condHolds, hmiss]⟩
  simp [hall]

/-- Witness for the amended C4: the probe rule on the empty fact set. -/
theorem matches_false_of_missing_key_witness :
    (("dispnea", "unknown") ∈
      ({ id := "RU_unknown_probe", any_conditions := [],
         all_conditions := [("dispnea", "unknown")],
         then_triage := some "Rosso", then_triage_min := none,
         priority := 1 } : Rule).all_conditions) ∧
    fget [] "dispnea" = none ∧
    ({ id := "RU_unknown_probe", any_conditions := [],
       all_conditions := [("dispnea", "unknown")],
       then_triage := some "Rosso", then_triage_min := none, priority := 1 } : Rule).matches []
      = false :=
  ⟨by decide, by decide,
    matches_false_of_missing_key _ [] "dispnea" "unknown" (by decide) (by decide)⟩

/-! ## Hard assignments overwrite: the last one wins (claim C3) -/

/-- Lookup of a fired rule by id; mirrors the `{r.id: r for r in kb}` lookup
in `main.py` (ids are unique in any well-formed rule set, so first match and
last match coincide). -/
def ruleById (kb : List Rule) (rid : String) : Option Rule :=
  kb.find? (fun r => r.id == rid)

/-- Hard-assignment target contributed by a fired rule id. -/
def hardOf (kb : List Rule) (rid : String) : Option String :=
  (ruleById kb rid).bind (fun r => r.then_triage)

/-- One step of `compute_triage_min_from_fired` in `main.py`. -/
def floorStep (kb : List Rule) (acc : Option String) (rid : String) : Option String :=
  match (ruleById kb rid).bind (fun r => r.then_triage_min) with
  | some m => some (mergeMin acc m)
  | none => acc

/-- Mirrors `compute_triage_min_from_fired(fired_ids)` from `main.py`,
parameterized by the rule set. -/
def compute_triage_min_from_fired (kb : List Rule) (fired : List String) : Option String :=
  fired.foldl (floorStep kb) none

theorem ruleById_of_nodup {kb : List Rule} (hnd : (kb.map Rule.id).Nodup) {r : Rule}
    (hmem : r ∈ kb) : ruleById kb r.id = some r := by
  induction kb with
  | nil => cases hmem
  | cons x rest ih =>
    rcases List.mem_cons.mp hmem with rfl | hmem
    · simp [ruleById, List.find?_cons]
    · have hx : (x.id == r.id) = false := by
        have hnotin := (List.nodup_cons.mp hnd).1
        have hin : r.id ∈ rest.map Rule.id := List.mem_map_of_mem Rule.id hmem
        simp only [beq_eq_false_iff_ne, ne_eq]
        intro he
        exact hnotin (he ▸ hin)
      have := ih (List.nodup_cons.mp hnd).2 hmem
      simpa [ruleById, List.find?_cons, hx] using this

theorem getLast?_cons_or {α : Type} (a : α) (l : List α) :
    (a :: l).getLast? = l.getLast?.or (some a) := by
  cases l with
  | nil => rfl
  | cons b l2 =>
    rw [List.getLast?_cons_cons]
    cases h : (b :: l2).getLast? with
    | none => simp at h
    | some z => simp [Option.or]

/-- Loop invariant characterizing the working `triage` fact and the running
floor: the `triage` fact after the loop is the target of the LAST hard
assignment applied (each `facts["triage"] = ...` overwrites the previous one),
falling back to the incoming value; the floor is the fold of the fired rules'
`triage_min` targets. -/
theorem fcLoop_hard_floor_char (kb : List Rule) (hnd : (kb.map Rule.id).Nodup) :
    ∀ fuel : Nat, ∀ facts : Facts, ∀ fired : List String, ∀ tmin : Option String,
      ∃ newIds : List String,
        (fcLoop kb fuel facts fired tmin).2.1 = fired ++ newIds ∧
        fget (fcLoop kb fuel facts fired tmin).1 "triage"
          = ((newIds.filterMap (hardOf kb)).getLast?).or (fget facts "triage") ∧
        (fcLoop kb fuel facts fired tmin).2.2 = newIds.foldl (floorStep kb) tmin := by
  intro fuel
  induction fuel with
  | zero =>
    intro facts fired tmin
    exact ⟨[], by simp [fcLoop], by simp [fcLoop], by simp [fcLoop]⟩
  | succ f ih =>
    intro facts fired tmin
    cases hs : stepRule kb fired facts with
    | none =>
      rw [fcLoop_succ_none hs]
      exact ⟨[], by simp, by simp, by simp⟩
    | some r =>
      have hrkb : r ∈ kb := (candidates_mem (stepRule_mem hs)).1
      have hfind : ruleById kb r.id = some r := ruleById_of_nodup hnd hrkb
      have hhard : hardOf kb r.id = r.then_triage := by simp [hardOf, hfind]
      have hfloor : ∀ acc, floorStep kb acc r.id = applyMin r acc := by
        intro acc
        simp only [floorStep, hfind, Option.some_bind, applyMin]
      have htr : fget (applyTriage r facts) "triage"
          = (r.then_triage).or (fget facts "triage") := by
        cases ht : r.then_triage with
        | none => simp [applyTriage, ht, Option.or]
        | some t => simp [applyTriage, ht, fget_fset_same, Option.or]
      rw [fcLoop_succ_some hs]
      cases hb : (fget (applyTriage r facts) "triage" == some "Rosso") with
      | true =>
        refine ⟨[r.id], by simp [hb], ?_, by simp [hb, hfloor]⟩
        simp only [hb, if_true]
        rw [htr]
        cases ht : r.then_triage with
        | none => simp [List.filterMap, hhard, ht, Option.or]
        | some t => simp [List.filterMap, hhard, ht, getLast?_cons_or, Option.or]
      | false =>
        simp only [hb, if_false, Bool.false_eq_true]
        obtain ⟨newIds2, hfired2, htriage2, htmin2⟩ :=
          ih (applyTriage r facts) (fired ++ [r.id]) (applyMin r tmin)
        refine ⟨r.id :: newIds2, ?_, ?_, ?_⟩
        · rw [hfired2]
          simp
        · rw [htriage2, htr]
          cases ht : r.then_triage with
          | none => simp [List.filterMap_cons, hhard, ht, Option.or]
          | some t =>
            simp only [List.filterMap_cons, hhard, ht, getLast?_cons_or, Option.or_assoc]
        · rw [htmin2]
          simp [List.foldl_cons, hfloor]

/-- Unfolding lemma for `forward_chain` in terms of the loop result. -/
theorem forward_chain_eq (facts : Facts) (kb : List Rule) :
    forward_chain facts kb =
      (match (fcLoop kb kb.length facts [] none).2.2 with
       | none => ((fget (fcLoop kb kb.length facts [] none).1 "triage").getD "Bianco",
                  (fcLoop kb kb.length facts [] none).2.1,
                  (fcLoop kb kb.length facts [] none).1)
       | some m =>
         (max_severity ((fget (fcLoop kb kb.length facts [] none).1 "triage").getD "Bianco") m,
          (fcLoop kb kb.length facts [] none).2.1,
          fset (fcLoop kb kb.length facts [] none).1 "triage"
            (max_severity
              ((fget (fcLoop kb kb.length facts [] none).1 "triage").getD "Bianco") m))) := by
  unfold forward_chain
  rfl

/-- Claim C3 counterexample: on facts
`{temp_cat: alta, alterazione_coscienza: no, dispnea: no}` with the default
rule set, two HardAssign rules fire — R5 (target Verde) and then R6 (target
Bianco) — and the engine reports `Bianco`, the target of the LAST HardAssign
fired, not the most severe target seen (`Verde`). -/
theorem last_hard_assign_wins_counterexample :
    (forward_chain [("temp_cat", "alta"), ("alterazione_coscienza", "no"),
                    ("dispnea", "no")] default_kb).2.1
        = ["R5_febbre_alta_senza_allarme", "R6_fallback_bianco"] ∧
    hardOf default_kb "R5_febbre_alta_senza_allarme" = some "Verde" ∧
    hardOf default_kb "R6_fallback_bianco" = some "Bianco" ∧
    max_severity "Verde" "Bianco" = "Verde" ∧
    (forward_chain [("temp_cat", "alta"), ("alterazione_coscienza", "no"),
                    ("dispnea", "no")] default_kb).1 = "Bianco" ∧
    ("Bianco" : String) ≠ "Verde" := by
  refine ⟨by decide, by decide, by decide, by decide, by decide, by decide⟩

/-- Amended claim C3: the severity reported by the rule engine is the target
of the HardAssign rule that fired last (each hard assignment overwrites the
previous working value; a `Rosso` assignment is final only because iteration
stops immediately on `Rosso`), defaulting to the incoming `triage` fact or
`Bianco` when no HardAssign fired, and finally raised to the running floor if
one was recorded. -/
theorem forward_chain_reports_last_hard_assign (kb : List Rule)
    (hnd : (kb.map Rule.id).Nodup) (facts : Facts) :
    (forward_chain facts kb).1 =
      (match compute_triage_min_from_fired kb (forward_chain facts kb).2.1 with
       | none =>
         ((((forward_chain facts kb).2.1).filterMap (hardOf kb)).getLast?.or
            (fget facts "triage")).getD "Bianco"
       | some m =>
         max_severity
           (((((forward_chain facts kb).2.1).filterMap (hardOf kb)).getLast?.or
               (fget facts "triage")).getD "Bianco") m) := by
  obtain ⟨newIds, hfired, htriage, htmin⟩ :=
    fcLoop_hard_floor_char kb hnd kb.length facts [] none
  have hfired2 : (fcLoop kb kb.length facts [] none).2.1 = newIds := by simpa using hfired
  have hcomp : compute_triage_min_from_fired kb newIds
      = (fcLoop kb kb.length facts [] none).2.2 := by
    unfold compute_triage_min_from_fired
    rw [htmin]
  rw [forward_chain_eq facts kb]
  cases h2 : (fcLoop kb kb.length facts [] none).2.2 with
  | none =>
    simp only [h2, hfired2]
    rw [hcomp, h2, htriage]
  | some m =>
    simp only [h2, hfired2]
    rw [hcomp, h2, htriage]

/-- Witness for the amended C3 on the counterexample facts: the default rule
set has distinct ids, and the reported severity (Bianco) is the target of the
last HardAssign fired, not the most severe one. -/
theorem forward_chain_reports_last_hard_assign_witness :
    (default_kb.map Rule.id).Nodup ∧
    (forward_chain [("temp_cat", "alta"), ("alterazione_coscienza", "no"),
                    ("dispnea", "no")] default_kb).1 =
      (match compute_triage_min_from_fired default_kb
          (forward_chain [("temp_cat", "alta"), ("alterazione_coscienza", "no"),
                          ("dispnea", "no")] default_kb).2.1 with
       | none =>
         (((forward_chain [("temp_cat", "alta"), ("alterazione_coscienza", "no"),
                           ("dispnea", "no")] default_kb).2.1.filterMap
              (hardOf default_kb)).getLast?.or
            (fget [("temp_cat", "alta"), ("alterazione_coscienza", "no"),
                   ("dispnea", "no")] "triage")).getD "Bianco"
       | some m =>
         max_severity
           ((((forward_chain [("temp_cat", "alta"), ("alterazione_coscienza", "no"),
                              ("dispnea", "no")] default_kb).2.1.filterMap
                 (hardOf default_kb)).getLast?.or
               (fget [("temp_cat", "alta"), ("alterazione_coscienza", "no"),
                      ("dispnea", "no")] "triage")).getD "Bianco") m) :=
  ⟨by decide,
    forward_chain_reports_last_hard_assign default_kb (by decide)
      [("temp_cat", "alta"), ("alterazione_coscienza", "no"), ("dispnea", "no")]⟩

/-! ## Cost-sensitive decision layer (`src/naive_bayes.py`) -/

/-- Triage classes in increasing severity; `CLASSES` in `naive_bayes.py`. -/
def CLASSES : List String := ["Bianco", "Verde", "Giallo", "Rosso"]

/-- The static cost matrix built by `_init_default_cost()`: 0 on the diagonal,
1 for a generic error, with the listed overrides. Python floats are exact
small integers here, so `ℚ` is faithful. -/
def DEFAULT_COST (ytrue yhat : String) : ℚ :=
  match ytrue, yhat with
  | "Rosso", "Giallo" => 30
  | "Rosso", "Verde" => 60
  | "Rosso", "Bianco" => 120
  | "Giallo", "Verde" => 8
  | "Giallo", "Bianco" => 16
  | "Verde", "Giallo" => 4
  | "Bianco", "Verde" => 3
  | "Verde", "Rosso" => 6
  | "Bianco", "Rosso" => 8
  | a, b => if a = b then 0 else 1

/-- Mirrors `expected_cost(probs, yhat, cost_matrix)`: the sum over true
classes of `probs[ytrue] * cost[(ytrue, yhat)]`. A posterior dictionary over
exactly the four classes is modelled as a function consulted at those four
keys. -/
def expected_cost (probs : String → ℚ) (yhat : String) (cost : String → String → ℚ) : ℚ :=
  (CLASSES.map (fun ytrue => probs ytrue * cost ytrue yhat)).sum

/-- Generic "keep the first best" fold: starting from `None`, replace the
accumulator only when `better` holds strictly. This is how both
`argmin_expected_cost` (`best, best_cost = None, inf; if c < best_cost`) and
Python `max` with a key (first maximal element wins) scan a list. -/
def pickBy {α : Type} (better : α → α → Bool) (cs : List α) : Option α :=
  cs.foldl (fun acc x =>
    match acc with
    | none => some x
    | some b => if better x b then some x else some b) none

/-- Expected-cost minimization over an arbitrary candidate list; the first
candidate attaining the minimum wins, exactly as in the Python loop where the
accumulator is replaced only on a strict `<`. -/
def argminOver (cs : List String) (probs : String → ℚ) (cost : String → String → ℚ) :
    Option String :=
  pickBy (fun c b => decide (expected_cost probs c cost < expected_cost probs b cost)) cs

/-- Mirrors `argmin_expected_cost(probs, cost_matrix)`. -/
def argmin_expected_cost (probs : String → ℚ) (cost : String → String → ℚ) : Option String :=
  argminOver CLASSES probs cost

/-- Mirrors `max(probs.items(), key=...)` in step 5 of the decider: the probs
dictionary is built with keys in `CLASSES` insertion order, and Python `max`
keeps the first maximal element. -/
def maxProbLabel (probs : String → ℚ) : Option String :=
  pickBy (fun c b => decide (probs b < probs c)) CLASSES

/-- The decision core of `NBModel.decide_cost_sensitive`, as a function of the
posterior it computes (`probs = self.predict_proba(facts)`); the posterior
estimator itself is an external trained collaborator. Steps mirror the
source: (1) expected-cost argmin, (2) floor enforcement via `max_severity`,
(3) anti-Rosso guardrail recomputing over non-Rosso candidates, (4) MAP
confidence override only when no floor was supplied. The `.getD "Bianco"`
defaults are never taken: the scanned candidate lists are nonempty, so the
Python variables are never `None` at these points. -/
def decide_cost_sensitive_post (probs : String → ℚ) (tmin : Option String)
    (cost : String → String → ℚ) (rosso_min_prob map_margin : ℚ) : String :=
  let y0 := (argmin_expected_cost probs cost).getD "Bianco"
  let y1 := match tmin with
    | none => y0
    | some m => max_severity y0 m
  let y2 := if tmin ≠ some "Rosso" ∧ y1 = "Rosso" ∧ probs "Rosso" < rosso_min_prob then
      (argminOver (CLASSES.filter (fun c => c != "Rosso")) probs cost).getD "Bianco"
    else y1
  match tmin with
  | some _ => y2
  | none =>
    let map_label := (maxProbLabel probs).getD "Bianco"
    if map_label ≠ y2 ∧ probs map_label - probs y2 ≥ map_margin then map_label else y2

/-- `decide_cost_sensitive` with its default parameters:
`cost_matrix=DEFAULT_COST`, `rosso_min_prob=0.15`, `map_margin=0.10`. -/
def decide_cost_sensitive (probs : String → ℚ) (tmin : Option String) : String :=
  decide_cost_sensitive_post probs tmin DEFAULT_COST (3/20) (1/10)

/-! ## Generic facts about the "keep the first best" fold -/

theorem pickBy_step_mem {α : Type} (better : α → α → Bool) :
    ∀ (cs : List α) (acc : Option α) (c : α),
      cs.foldl (fun a x =>
        match a with
        | none => some x
        | some b => if better x b then some x else some b) acc = some c →
      c ∈ cs ∨ acc = some c := by
  intro cs
  induction cs with
  | nil =>
    intro acc c h
    exact Or.inr (by simpa using h)
  | cons x rest ih =>
    intro acc c h
    rw [List.foldl_cons] at h
    rcases ih _ c h with hmem | hacc
    · exact Or.inl (List.mem_cons_of_mem x hmem)
    · cases acc with
      | none =>
        have : x = c := by simpa using hacc
        exact Or.inl (this ▸ List.mem_cons_self x rest)
      | some b =>
        cases hb : better x b with
        | true =>
          simp only [hb, if_true] at hacc
          have : x = c := by simpa using hacc
          exact Or.inl (this ▸ List.mem_cons_self x rest)
        | false =>
          simp only [hb, Bool.false_eq_true, if_false] at hacc
          exact Or.inr hacc

theorem pickBy_mem {α : Type} {better : α → α → Bool} {cs : List α} {c : α}
    (h : pickBy better cs = some c) : c ∈ cs := by
  rcases pickBy_step_mem better cs none c h with hmem | habs
  · exact hmem
  · cases habs

theorem pickBy_some_of_some {α : Type} (better : α → α → Bool) :
    ∀ (cs : List α) (b : α),
      ∃ c, cs.foldl (fun a x =>
        match a with
        | none => some x
        | some b => if better x b then some x else some b) (some b) = some c := by
  intro cs
  induction cs with
  | nil => exact fun b => ⟨b, rfl⟩
  | cons x rest ih =>
    intro b
    rw [List.foldl_cons]
    cases hb : better x b with
    | true => simpa [hb] using ih x
    | false => simpa [hb] using ih b

theorem pickBy_isSome {α : Type} (better : α → α → Bool) (cs : List α) (h : cs ≠ []) :
    ∃ c, pickBy better cs = some c := by
  cases cs with
  | nil => cases h rfl
  | cons x rest =>
    unfold pickBy
    rw [List.foldl_cons]
    exact pickBy_some_of_some better rest x

theorem max_severity_mem {a b : String} (ha : a ∈ CLASSES) (hb : b ∈ CLASSES) :
    max_severity a b ∈ CLASSES := by
  unfold max_severity
  split_ifs <;> assumption

/-! ## Expected-cost minimization (claim C7) -/

/-- Claim C7: for every posterior and cost matrix (in particular every valid
one), the expected-cost-minimization step returns a class `c` whose expected
cost is minimal over all four classes, and on ties the least severe class
(smallest `sevRank`) among those attaining the minimum: the Python loop
replaces its accumulator only on a strict `<`, so the first — least severe —
minimizer wins. -/
theorem argmin_expected_cost_minimizes (probs : String → ℚ) (cost : String → String → ℚ) :
    ∃ c : String, argmin_expected_cost probs cost = some c ∧ c ∈ CLASSES ∧
      (∀ d ∈ CLASSES, expected_cost probs c cost ≤ expected_cost probs d cost) ∧
      (∀ d ∈ CLASSES, expected_cost probs d cost = expected_cost probs c cost →
        sevRank c ≤ sevRank d) := by
  simp only [argmin_expected_cost, argminOver, pickBy, CLASSES, List.foldl_cons,
    List.foldl_nil, decide_eq_true_eq]
  split_ifs with h1 <;> simp only [] <;> split_ifs with h2 <;> simp only [] <;>
    split_ifs with h3 <;>
    refine ⟨_, rfl, by decide, ?_, ?_⟩ <;>
    · intro d hd
      fin_cases hd <;> first
        | linarith
        | decide
        | (intro he; first | decide | linarith)

/-- Witness for C7 at a concrete posterior: probability 1 on Giallo. -/
theorem argmin_expected_cost_minimizes_witness :
    ∃ c : String,
      argmin_expected_cost (fun x => if x = "Giallo" then 1 else 0) DEFAULT_COST = some c ∧
      c ∈ CLASSES ∧
      (∀ d ∈ CLASSES,
        expected_cost (fun x => if x = "Giallo" then 1 else 0) c DEFAULT_COST ≤
          expected_cost (fun x => if x = "Giallo" then 1 else 0) d DEFAULT_COST) ∧
      (∀ d ∈ CLASSES,
        expected_cost (fun x => if x = "Giallo" then 1 else 0) d DEFAULT_COST =
            expected_cost (fun x => if x = "Giallo" then 1 else 0) c DEFAULT_COST →
          sevRank c ≤ sevRank d) :=
  argmin_expected_cost_minimizes (fun x => if x = "Giallo" then 1 else 0) DEFAULT_COST

/-! ## No posterior validation in the decider (claim C5) -/

/-- Claim C5 counterexample: the all-zero "posterior" does not sum to 1, yet
the cost-sensitive decide operation proceeds and returns the severity
`Bianco` — no error is raised, no validation is performed, nothing is
normalized. (`decide_cost_sensitive` contains no check of `probs`; its only
uses of the posterior are the arithmetic below, which is total.) -/
theorem invalid_posterior_accepted_counterexample :
    (CLASSES.map (fun _ : String => (0 : ℚ))).sum ≠ 1 ∧
    decide_cost_sensitive (fun _ => 0) none = "Bianco" := by
  constructor
  · simp [CLASSES]
  · have e0 : ∀ c, expected_cost (fun _ => (0 : ℚ)) c DEFAULT_COST = 0 := by
      intro c
      simp [expected_cost, CLASSES]
    have hmin : argmin_expected_cost (fun _ => (0 : ℚ)) DEFAULT_COST = some "Bianco" := by
      simp only [argmin_expected_cost, argminOver, pickBy, CLASSES, List.foldl_cons,
        List.foldl_nil, decide_eq_true_eq]
      norm_num [e0]
    have hmap : maxProbLabel (fun _ => (0 : ℚ)) = some "Bianco" := by
      simp only [maxProbLabel, pickBy, CLASSES, List.foldl_cons, List.foldl_nil,
        decide_eq_true_eq]
      norm_num
    simp only [decide_cost_sensitive, decide_cost_sensitive_post, hmin, hmap, Option.getD_some]
    norm_num
    intro h1 hbr
    exact absurd hbr (by decide)

/-- Amended claim C5: the decide operation performs no validation of the
posterior whatsoever — for every posterior-like input (valid distribution or
not) and every floor drawn from the four classes (or absent), it proceeds with
the numbers as given, never raises and never normalizes, and returns one of
the four severity classes. -/
theorem decide_accepts_any_posterior (probs : String → ℚ) (tmin : Option String)
    (h : tmin = none ∨ ∃ m ∈ CLASSES, tmin = some m) :
    decide_cost_sensitive probs tmin ∈ CLASSES := by
  have hy0 : (argmin_expected_cost probs DEFAULT_COST).getD "Bianco" ∈ CLASSES := by
    obtain ⟨c0, hc0⟩ := pickBy_isSome
      (fun c b => decide (expected_cost probs c DEFAULT_COST < expected_cost probs b DEFAULT_COST))
      CLASSES (by decide)
    rw [argmin_expected_cost, argminOver, hc0, Option.getD_some]
    exact pickBy_mem hc0
  have hre : (argminOver (CLASSES.filter (fun c => c != "Rosso")) probs DEFAULT_COST).getD
      "Bianco" ∈ CLASSES := by
    have hfil : CLASSES.filter (fun c => c != "Rosso") = ["Bianco", "Verde", "Giallo"] := rfl
    obtain ⟨c1, hc1⟩ := pickBy_isSome
      (fun c b => decide (expected_cost probs c DEFAULT_COST < expected_cost probs b DEFAULT_COST))
      (["Bianco", "Verde", "Giallo"] : List String) (by decide)
    rw [argminOver, hfil, hc1, Option.getD_some]
    have := pickBy_mem hc1
    fin_cases this <;> decide
  have hml : (maxProbLabel probs).getD "Bianco" ∈ CLASSES := by
    obtain ⟨c2, hc2⟩ := pickBy_isSome
      (fun c b => decide (probs b < probs c)) CLASSES (by decide)
    rw [maxProbLabel, hc2, Option.getD_some]
    exact pickBy_mem hc2
  rcases h with rfl | ⟨m, hm, rfl⟩
  · simp only [decide_cost_sensitive, decide_cost_sensitive_post]
    split_ifs <;> first | exact hml | exact hre | exact hy0
  · simp only [decide_cost_sensitive, decide_cost_sensitive_post]
    split_ifs <;> first | exact hre | exact max_severity_mem hy0 hm

/-- Witness for the amended C5: the all-zero invalid posterior, no floor. -/
theorem decide_accepts_any_posterior_witness :
    decide_cost_sensitive (fun _ => 0) none ∈ CLASSES :=
  decide_accepts_any_posterior (fun _ => 0) none (Or.inl rfl)

/-! ## The guardrail can drop the decision below the floor (claim C1) -/

/-- A posterior the estimator may produce: 0.9 on Verde, 0.1 on Rosso. -/
def lowRossoProbs : String → ℚ
  | "Verde" => 9/10
  | "Rosso" => 1/10
  | _ => 0

/-- Claim C1 failing input, evaluated on the embedded code. The fact set
`{dolore_toracico: yes, dispnea: yes}` makes the rule engine return the floor
`Giallo` with no hard top-severity assignment. On the posterior
`lowRossoProbs` the expected-cost argmin is Rosso (cost asymmetry), the floor
keeps it at Rosso, and then the anti-Rosso guardrail fires
(`p(Rosso) = 0.1 < 0.15` and the floor is not Rosso): it recomputes the argmin
over {Bianco, Verde, Giallo} only and returns Verde — strictly below the floor
Giallo, because the recomputation never re-applies the floor. This contradicts
the claim, the spec ("the final decision may exceed the floor but never fall
below it") and the code's own documentation (`main.py`: "rispetta
'triage_min' (non scendere sotto)"; the guardrail's stated intent in
`naive_bayes.py` is to avoid Rosso only when "non c'è un vincolo dalle
regole"). -/
theorem guardrail_drops_below_floor :
    compute_triage_min_from_fired default_kb
        (forward_chain [("dolore_toracico", "yes"), ("dispnea", "yes")] default_kb).2.1
      = some "Giallo" ∧
    (forward_chain [("dolore_toracico", "yes"), ("dispnea", "yes")] default_kb).1 ≠ "Rosso" ∧
    decide_cost_sensitive lowRossoProbs (some "Giallo") = "Verde" ∧
    sevRank "Verde" < sevRank "Giallo" := by
  refine ⟨by decide, by decide, ?_, by decide⟩
  have eB : expected_cost lowRossoProbs "Bianco" DEFAULT_COST = 129/10 := by
    simp only [expected_cost, CLASSES, List.map_cons, List.map_nil, List.sum_cons, List.sum_nil]
    norm_num [show lowRossoProbs "Bianco" = 0 from rfl, show lowRossoProbs "Verde" = 9/10 from rfl,
      show lowRossoProbs "Giallo" = 0 from rfl, show lowRossoProbs "Rosso" = 1/10 from rfl,
      show DEFAULT_COST "Bianco" "Bianco" = 0 from rfl,
      show DEFAULT_COST "Verde" "Bianco" = 1 from rfl,
      show DEFAULT_COST "Giallo" "Bianco" = 16 from rfl,
      show DEFAULT_COST "Rosso" "Bianco" = 120 from rfl]
  have eV : expected_cost lowRossoProbs "Verde" DEFAULT_COST = 6 := by
    simp only [expected_cost, CLASSES, List.map_cons, List.map_nil, List.sum_cons, List.sum_nil]
    norm_num [show lowRossoProbs "Bianco" = 0 from rfl, show lowRossoProbs "Verde" = 9/10 from rfl,
      show lowRossoProbs "Giallo" = 0 from rfl, show lowRossoProbs "Rosso" = 1/10 from rfl,
      show DEFAULT_COST "Bianco" "Verde" = 3 from rfl,
      show DEFAULT_COST "Verde" "Verde" = 0 from rfl,
      show DEFAULT_COST "Giallo" "Verde" = 8 from rfl,
      show DEFAULT_COST "Rosso" "Verde" = 60 from rfl]
  have eG : expected_cost lowRossoProbs "Giallo" DEFAULT_COST = 33/5 := by
    simp only [expected_cost, CLASSES, List.map_cons, List.map_nil, List.sum_cons, List.sum_nil]
    norm_num [show lowRossoProbs "Bianco" = 0 from rfl, show lowRossoProbs "Verde" = 9/10 from rfl,
      show lowRossoProbs "Giallo" = 0 from rfl, show lowRossoProbs "Rosso" = 1/10 from rfl,
      show DEFAULT_COST "Bianco" "Giallo" = 1 from rfl,
      show DEFAULT_COST "Verde" "Giallo" = 4 from rfl,
      show DEFAULT_COST "Giallo" "Giallo" = 0 from rfl,
      show DEFAULT_COST "Rosso" "Giallo" = 30 from rfl]
  have eR : expected_cost lowRossoProbs "Rosso" DEFAULT_COST = 27/5 := by
    simp only [expected_cost, CLASSES, List.map_cons, List.map_nil, List.sum_cons, List.sum_nil]
    norm_num [show lowRossoProbs "Bianco" = 0 from rfl, show lowRossoProbs "Verde" = 9/10 from rfl,
      show lowRossoProbs "Giallo" = 0 from rfl, show lowRossoProbs "Rosso" = 1/10 from rfl,
      show DEFAULT_COST "Bianco" "Rosso" = 8 from rfl,
      show DEFAULT_COST "Verde" "Rosso" = 6 from rfl,
      show DEFAULT_COST "Giallo" "Rosso" = 1 from rfl,
      show DEFAULT_COST "Rosso" "Rosso" = 0 from rfl]
  have hmin : argmin_expected_cost lowRossoProbs DEFAULT_COST = some "Rosso" := by
    simp only [argmin_expected_cost, argminOver, pickBy, CLASSES, List.foldl_cons,
      List.foldl_nil, decide_eq_true_eq]
    norm_num [eB, eV, eG, eR]
  have hfil : CLASSES.filter (fun c => c != "Rosso") = ["Bianco", "Verde", "Giallo"] := rfl
  have hre : argminOver (CLASSES.filter (fun c => c != "Rosso")) lowRossoProbs DEFAULT_COST
      = some "Verde" := by
    rw [hfil]
    simp only [argminOver, pickBy, List.foldl_cons, List.foldl_nil, decide_eq_true_eq]
    norm_num [eB, eV, eG]
  simp only [decide_cost_sensitive, decide_cost_sensitive_post, hmin, hre, Option.getD_some]
  norm_num [show lowRossoProbs "Rosso" = 1/10 from rfl,
    show max_severity "Rosso" "Giallo" = "Rosso" from rfl]
  exact fun h => absurd h (by decide)

/-! ## Decision fusion (`triage_with_rules_and_nb` in `main.py`, claim C2) -/

/-- The degenerate posterior built in the Rosso override branch:
`{"Bianco": 0.0, "Verde": 0.0, "Giallo": 0.0, "Rosso": 1.0}`. -/
def degenerateRosso : String → ℚ :=
  fun c => if c = "Rosso" then 1 else 0

/-- Mirrors `triage_with_rules_and_nb(raw, nb_model)` from the preprocessed
fact set onward (`preprocess_input` is the external FeatureNormalizer;
quantifying over all fact sets covers all of its outputs). The posterior
estimator is passed as a function `post`, and the last component counts how
many times `predict_proba` is invoked on the request: 0 on the Rosso override
path, 1 when `decide_cost_sensitive` runs (it computes
`probs = self.predict_proba(facts)` exactly once). -/
def triage_with_rules_and_nb (post : Facts → String → ℚ) (facts : Facts) :
    String × List String × Facts × (String → ℚ) × Nat :=
  let fc := forward_chain facts default_kb
  if fc.1 = "Rosso" then
    ("Rosso", fc.2.1, fc.2.2, degenerateRosso, 0)
  else
    (decide_cost_sensitive (post fc.2.2) (compute_triage_min_from_fired default_kb fc.2.1),
     fc.2.1, fc.2.2, post fc.2.2, 1)

/-- Claim C2: whenever forward chaining yields the top severity Rosso, the
fused classification finalizes immediately with Rosso and the degenerate
posterior (probability 1 on Rosso, 0 on each other class), and the posterior
estimator is invoked zero times on that request — this holds for every
estimator `post`. -/
theorem rosso_override_skips_estimator (post : Facts → String → ℚ) (facts : Facts)
    (h : (forward_chain facts default_kb).1 = "Rosso") :
    triage_with_rules_and_nb post facts =
      ("Rosso", (forward_chain facts default_kb).2.1,
       (forward_chain facts default_kb).2.2, degenerateRosso, 0) ∧
    degenerateRosso "Rosso" = 1 ∧ degenerateRosso "Bianco" = 0 ∧
    degenerateRosso "Verde" = 0 ∧ degenerateRosso "Giallo" = 0 := by
  refine ⟨?_, rfl, rfl, rfl, rfl⟩
  unfold triage_with_rules_and_nb
  simp [h]

/-- Witness for C2: facts `{spo2_cat: severa}` trigger the R1 hard Rosso. -/
theorem rosso_override_skips_estimator_witness :
    (forward_chain [("spo2_cat", "severa")] default_kb).1 = "Rosso" ∧
    (triage_with_rules_and_nb (fun _ _ => 0) [("spo2_cat", "severa")] =
      ("Rosso", (forward_chain [("spo2_cat", "severa")] default_kb).2.1,
       (forward_chain [("spo2_cat", "severa")] default_kb).2.2, degenerateRosso, 0) ∧
     degenerateRosso "Rosso" = 1 ∧ degenerateRosso "Bianco" = 0 ∧
     degenerateRosso "Verde" = 0 ∧ degenerateRosso "Giallo" = 0) :=
  ⟨by decide, rosso_override_skips_estimator (fun _ _ => 0) [("spo2_cat", "severa")] (by decide)⟩

/-! ## Priority queue (`src/priority_queue.py`) -/

/-- Severity order of the queue module (`SEVERITY_ORDER`). -/
def SEVERITY_ORDER : List String := ["Bianco", "Verde", "Giallo", "Rosso"]

/-- A queued patient. The `payload` dict is opaque to the queue and touched by
no claim, so it is omitted; `sort_index` is derived data never used by the
queue's own ordering logic (the module sorts explicitly by `arrival_ts`). -/
structure Patient where
  patient_id : String
  triage : String
  arrival_ts : ℚ
deriving DecidableEq

/-- The queue state: `self.queues`, a dict created in `__init__` with exactly
the four severity keys, each holding an arrival-ordered list. The key set
never changes afterwards, so a four-field structure is a faithful model; the
KeyError on any other severity string is modelled in `getBucket`. -/
structure TriageQueue where
  bianco : List Patient
  verde : List Patient
  giallo : List Patient
  rosso : List Patient
deriving DecidableEq

/-- Model of `self.queues[lvl]`: `none` is Python's KeyError. -/
def getBucket (q : TriageQueue) (lvl : String) : Option (List Patient) :=
  if lvl = "Bianco" then some q.bianco
  else if lvl = "Verde" then some q.verde
  else if lvl = "Giallo" then some q.giallo
  else if lvl = "Rosso" then some q.rosso
  else none

/-- Replace one bucket (used to model in-place list mutation). -/
def setBucket (q : TriageQueue) (lvl : String) (l : List Patient) : TriageQueue :=
  if lvl = "Bianco" then ⟨l, q.verde, q.giallo, q.rosso⟩
  else if lvl = "Verde" then ⟨q.bianco, l, q.giallo, q.rosso⟩
  else if lvl = "Giallo" then ⟨q.bianco, q.verde, l, q.rosso⟩
  else if lvl = "Rosso" then ⟨q.bianco, q.verde, q.giallo, l⟩
  else q

/-- Mirrors `TriageQueue.enqueue(triage, payload, patient_id)`: the fresh id
and the `time.time()` timestamp are external effects, passed as arguments.
`self.queues[triage].append(patient)` raises KeyError (here: `none`) for a
severity outside the four levels; otherwise it appends to that bucket. -/
def enqueue (q : TriageQueue) (triage pid : String) (ts : ℚ) :
    Option (Patient × TriageQueue) :=
  match getBucket q triage with
  | none => none
  | some bucket =>
    some (⟨pid, triage, ts⟩, setBucket q triage (bucket ++ [⟨pid, triage, ts⟩]))

/-- Extraction of the earliest arrival from a bucket:
`min(range(len(bucket)), key=lambda i: bucket[i].arrival_ts)` returns the
FIRST index attaining the minimal timestamp, and `bucket.pop(idx)` removes it
keeping the order of the others. -/
def extractMin : List Patient → Option (Patient × List Patient)
  | [] => none
  | p :: rest =>
    match extractMin rest with
    | none => some (p, [])
    | some (m, rest2) =>
      if p.arrival_ts ≤ m.arrival_ts then some (p, rest) else some (m, p :: rest2)

theorem extractMin_eq_none_iff (l : List Patient) : extractMin l = none ↔ l = [] := by
  cases l with
  | nil => simp [extractMin]
  | cons p rest =>
    simp only [extractMin]
    cases extractMin rest with
    | none => simp
    | some pr =>
      obtain ⟨m, rest2⟩ := pr
      simp only []
      split_ifs <;> simp

theorem extractMin_length :
    ∀ l : List Patient, ∀ p : Patient, ∀ r : List Patient,
      extractMin l = some (p, r) → r.length + 1 = l.length := by
  intro l
  induction l with
  | nil => intro p r h; cases h
  | cons x rest ih =>
    intro p r h
    simp only [extractMin] at h
    cases hm : extractMin rest with
    | none =>
      have hrest : rest = [] := (extractMin_eq_none_iff rest).mp hm
      rw [hm] at h
      obtain ⟨rfl, rfl⟩ : x = p ∧ [] = r := by simpa using h
      simp [hrest]
    | some pr =>
      obtain ⟨m, rest2⟩ := pr
      rw [hm] at h
      have hlen := ih m rest2 hm
      simp only [] at h
      split_ifs at h with hts
      · obtain ⟨rfl, rfl⟩ : x = p ∧ rest = r := by simpa using h
        simp
      · obtain ⟨rfl, rfl⟩ : m = p ∧ x :: rest2 = r := by simpa using h
        simp only [List.length_cons]
        omega

/-- Fueled sorting by repeated first-minimum extraction. Python
`sorted(bucket, key=lambda x: x.arrival_ts)` is a stable sort, and a stable
sort by a key is exactly: repeatedly remove the earliest-indexed element of
minimal key. This also makes `snapshot`'s per-bucket order and `serve_next`'s
extraction definitionally consistent, which the round trip claim is about. -/
def sortTsF : Nat → List Patient → List Patient
  | 0, _ => []
  | fuel + 1, l =>
    match extractMin l with
    | none => []
    | some (m, rest) => m :: sortTsF fuel rest

/-- Stable sort of one bucket by arrival timestamp (fuel `l.length` is exact,
as each extraction removes one element). -/
def sortTs (l : List Patient) : List Patient :=
  sortTsF l.length l

theorem sortTs_nil : sortTs [] = [] := rfl

theorem sortTs_extract {l : List Patient} {m : Patient} {rest : List Patient}
    (h : extractMin l = some (m, rest)) : sortTs l = m :: sortTs rest := by
  have hlen := extractMin_length l m rest h
  unfold sortTs
  rw [← hlen]
  simp only [sortTsF, h]

/-- Mirrors `snapshot()` / `_ordered_iter()`: buckets from most to least
urgent, each sorted (stably) by arrival timestamp. -/
def snapshot (q : TriageQueue) : List Patient :=
  sortTs q.rosso ++ sortTs q.giallo ++ sortTs q.verde ++ sortTs q.bianco

/-- Mirrors `serve_next()`: scan severities from most to least urgent, and pop
the earliest arrival (first index on ties) from the first non-empty bucket. -/
def serve_next (q : TriageQueue) : Option (Patient × TriageQueue) :=
  match extractMin q.rosso with
  | some (p, rest) => some (p, ⟨q.bianco, q.verde, q.giallo, rest⟩)
  | none =>
    match extractMin q.giallo with
    | some (p, rest) => some (p, ⟨q.bianco, q.verde, rest, q.rosso⟩)
    | none =>
      match extractMin q.verde with
      | some (p, rest) => some (p, ⟨q.bianco, rest, q.giallo, q.rosso⟩)
      | none =>
        match extractMin q.bianco with
        | some (p, rest) => some (p, ⟨rest, q.verde, q.giallo, q.rosso⟩)
        | none => none

/-- Mirrors `__len__`. -/
def qsize (q : TriageQueue) : Nat :=
  q.bianco.length + q.verde.length + q.giallo.length + q.rosso.length

/-- Repeatedly serve patients; fuel `qsize q` performs exactly one
`serve_next` call per queued ticket. -/
def serveAllF : Nat → TriageQueue → List Patient
  | 0, _ => []
  | fuel + 1, q =>
    match serve_next q with
    | none => []
    | some (p, q2) => p :: serveAllF fuel q2

/-- Serving the whole queue: N = `qsize q` calls of `serve_next`. -/
def serveAll (q : TriageQueue) : List Patient :=
  serveAllF (qsize q) q

theorem serveAllF_eq_snapshot :
    ∀ n : Nat, ∀ q : TriageQueue, qsize q = n → serveAllF n q = snapshot q := by
  intro n
  induction n with
  | zero =>
    intro q h
    unfold qsize at h
    obtain ⟨hb, hv, hg, hr⟩ : q.bianco = [] ∧ q.verde = [] ∧ q.giallo = [] ∧ q.rosso = [] := by
      refine ⟨?_, ?_, ?_, ?_⟩ <;> rw [← List.length_eq_zero] <;> omega
    simp [serveAllF, snapshot, hb, hv, hg, hr, sortTs_nil]
  | succ k ih =>
    intro q h
    unfold qsize at h
    cases hr : extractMin q.rosso with
    | some pr =>
      obtain ⟨p, rest⟩ := pr
      have hserve : serve_next q = some (p, ⟨q.bianco, q.verde, q.giallo, rest⟩) := by
        simp only [serve_next, hr]
      have hlen := extractMin_length _ _ _ hr
      have hq2 : qsize ⟨q.bianco, q.verde, q.giallo, rest⟩ = k := by
        unfold qsize
        simp only []
        omega
      simp only [serveAllF, hserve]
      rw [ih _ hq2]
      simp [snapshot, sortTs_extract hr]
    | none =>
      have hrosso : q.rosso = [] := (extractMin_eq_none_iff _).mp hr
      cases hg : extractMin q.giallo with
      | some pr =>
        obtain ⟨p, rest⟩ := pr
        have hserve : serve_next q = some (p, ⟨q.bianco, q.verde, rest, q.rosso⟩) := by
          simp only [serve_next, hr, hg]
        have hlen := extractMin_length _ _ _ hg
        have hq2 : qsize ⟨q.bianco, q.verde, rest, q.rosso⟩ = k := by
          unfold qsize
          simp only []
          omega
        simp only [serveAllF, hserve]
        rw [ih _ hq2]
        simp [snapshot, sortTs_extract hg, hrosso, sortTs_nil]
      | none =>
        have hgiallo : q.giallo = [] := (extractMin_eq_none_iff _).mp hg
        cases hv : extractMin q.verde with
        | some pr =>
          obtain ⟨p, rest⟩ := pr
          have hserve : serve_next q = some (p, ⟨q.bianco, rest, q.giallo, q.rosso⟩) := by
            simp only [serve_next, hr, hg, hv]
          have hlen := extractMin_length _ _ _ hv
          have hq2 : qsize ⟨q.bianco, rest, q.giallo, q.rosso⟩ = k := by
            unfold qsize
            simp only []
            omega
          simp only [serveAllF, hserve]
          rw [ih _ hq2]
          simp [snapshot, sortTs_extract hv, hrosso, hgiallo, sortTs_nil]
        | none =>
          have hverde : q.verde = [] := (extractMin_eq_none_iff _).mp hv
          cases hb : extractMin q.bianco with
          | some pr =>
            obtain ⟨p, rest⟩ := pr
            have hserve : serve_next q = some (p, ⟨rest, q.verde, q.giallo, q.rosso⟩) := by
              simp only [serve_next, hr, hg, hv, hb]
            have hlen := extractMin_length _ _ _ hb
            have hq2 : qsize ⟨rest, q.verde, q.giallo, q.rosso⟩ = k := by
              unfold qsize
              simp only []
              omega
            simp only [serveAllF, hserve]
            rw [ih _ hq2]
            simp [snapshot, sortTs_extract hb, hrosso, hgiallo, hverde, sortTs_nil]
          | none =>
            have hbianco : q.bianco = [] := (extractMin_eq_none_iff _).mp hb
            rw [hbianco, hverde, hgiallo, hrosso] at h
            simp at h

/-- Claim C8: for every queue state, serving the queue to exhaustion (one
`serve_next` call per queued ticket, i.e. N calls after N enqueues) yields the
tickets in exactly the order `snapshot()` returned before the first call:
severity descending, then arrival ascending, equal timestamps resolved by
insertion position consistently in both operations. -/
theorem serve_roundtrip_matches_snapshot (q : TriageQueue) : serveAll q = snapshot q :=
  serveAllF_eq_snapshot (qsize q) q rfl

/-- Claim C10: `enqueue` succeeds for each of the four severity levels —
appending a fresh ticket carrying the given id, severity and timestamp to that
severity's bucket and leaving every other bucket unchanged — and fails (the
`self.queues[triage]` lookup raises KeyError, modelled as `none`) for every
severity string outside the four-level enumeration: the queue's no-failure
guarantee does not cover the severity argument. -/
theorem enqueue_total_exactly_on_levels (q : TriageQueue) (lvl pid : String) (ts : ℚ) :
    (lvl ∈ SEVERITY_ORDER →
      ∃ p : Patient, ∃ q2 : TriageQueue,
        enqueue q lvl pid ts = some (p, q2) ∧
        p.triage = lvl ∧ p.patient_id = pid ∧ p.arrival_ts = ts ∧
        getBucket q2 lvl = (getBucket q lvl).map (fun b => b ++ [p]) ∧
        ∀ lvl2 : String, lvl2 ≠ lvl → getBucket q2 lvl2 = getBucket q lvl2) ∧
    (lvl ∉ SEVERITY_ORDER → enqueue q lvl pid ts = none) := by
  constructor
  · intro hmem
    fin_cases hmem <;>
      refine ⟨_, _, rfl, rfl, rfl, rfl, by simp [getBucket, setBucket, enqueue], ?_⟩ <;>
      · intro lvl2 h2
        simp only [getBucket, setBucket]
        split_ifs <;> simp_all
  · intro hnot
    have h1 : lvl ≠ "Bianco" := fun he => hnot (he ▸ (by decide))
    have h2 : lvl ≠ "Verde" := fun he => hnot (he ▸ (by decide))
    have h3 : lvl ≠ "Giallo" := fun he => hnot (he ▸ (by decide))
    have h4 : lvl ≠ "Rosso" := fun he => hnot (he ▸ (by decide))
    simp [enqueue, getBucket, h1, h2, h3, h4]

/-- Witness for C10: both branches exercised — a valid severity (`Giallo`)
succeeds and an invalid one (`Arancione`) is a KeyError. -/
theorem enqueue_total_exactly_on_levels_witness :
    ((("Giallo" : String) ∈ SEVERITY_ORDER →
      ∃ p : Patient, ∃ q2 : TriageQueue,
        enqueue ⟨[], [], [], []⟩ "Giallo" "P0001" 1 = some (p, q2) ∧
        p.triage = "Giallo" ∧ p.patient_id = "P0001" ∧ p.arrival_ts = 1 ∧
        getBucket q2 "Giallo" = (getBucket ⟨[], [], [], []⟩ "Giallo").map (fun b => b ++ [p]) ∧
        ∀ lvl2 : String, lvl2 ≠ "Giallo" →
          getBucket q2 lvl2 = getBucket ⟨[], [], [], []⟩ lvl2) ∧
     (("Giallo" : String) ∉ SEVERITY_ORDER →
        enqueue ⟨[], [], [], []⟩ "Giallo" "P0001" 1 = none)) ∧
    ((("Arancione" : String) ∈ SEVERITY_ORDER →
      ∃ p : Patient, ∃ q2 : TriageQueue,
        enqueue ⟨[], [], [], []⟩ "Arancione" "P0002" 2 = some (p, q2) ∧
        p.triage = "Arancione" ∧ p.patient_id = "P0002" ∧ p.arrival_ts = 2 ∧
        getBucket q2 "Arancione" =
          (getBucket ⟨[], [], [], []⟩ "Arancione").map (fun b => b ++ [p]) ∧
        ∀ lvl2 : String, lvl2 ≠ "Arancione" →
          getBucket q2 lvl2 = getBucket ⟨[], [], [], []⟩ lvl2) ∧
     (("Arancione" : String) ∉ SEVERITY_ORDER →
        enqueue ⟨[], [], [], []⟩ "Arancione" "P0002" 2 = none)) :=
  ⟨enqueue_total_exactly_on_levels ⟨[], [], [], []⟩ "Giallo" "P0001" 1,
   enqueue_total_exactly_on_levels ⟨[], [], [], []⟩ "Arancione" "P0002" 2⟩
